import Mathlib

/-!
Verification of the `mihifepe` simulation module
(`mihifepe/simulation/simulation.py` and `mihifepe/simulation/model.py`).

The Python source is shallowly embedded: trees become nested inductives,
`numpy`/`random` draws become explicit function parameters (a draw is a
deterministic function of the seed, mirroring `np.random.RandomState`),
Python floats become rationals (and reals where `np.sqrt` appears), and
Python exceptions become `Except` values.
-/

namespace Mihifepe

/-- Noise-type constant `constants.NO_NOISE` (a CLI choice in `simulation.main`). -/
def NO_NOISE : String := "no_noise"

/-- Noise-type constant `constants.EPSILON_IRRELEVANT`. -/
def EPSILON_IRRELEVANT : String := "epsilon_irrelevant"

/-- Noise-type constant `constants.ADDITIVE_GAUSSIAN`. -/
def ADDITIVE_GAUSSIAN : String := "additive_gaussian"

/-- Relevance description attached to hierarchy nodes by
`update_hierarchy_relevance`.  The Python code stores strings; only the
distinction between `constants.IRRELEVANT`, the relevant-linear leaf string,
the relevant-interaction-only leaf string and the internal `constants.RELEVANT`
string matters to any computation, so we embed the description as a
four-valued enumeration. -/
inductive Desc where
  | irrelevant
  | relevantLinear
  | relevantInteractionOnly
  | relevant
deriving DecidableEq, Repr

/-- The relevance map `relevant_feature_map`: a dictionary from frozensets of
feature indices to coefficients, embedded as an association list keyed by
`Finset ℕ`. -/
abbrev RMap : Type := List (Finset ℕ × ℚ)

/-- `relevant_feature_map.get(k)`: first matching value, if any. -/
def rmapGet (m : RMap) (k : Finset ℕ) : Option ℚ :=
  (m.find? (fun kv => kv.1 = k)).map (·.2)

/-- Python truthiness of `dict.get`'s result (`None` and `0.0` are falsy). -/
def truthy : Option ℚ → Bool
  | some c => c ≠ 0
  | none => false

/-- Union of all keys of the relevance map (the `relevant_features` set
computed in `update_hierarchy_relevance`, and the `interaction_features`
set computed in `update_linear_terms`). -/
def rmapFeatures (m : RMap) : Finset ℕ :=
  m.foldr (fun kv acc => kv.1 ∪ acc) ∅

/-- A hierarchy node (an `anytree.Node`).  `idx` is the leaf's
`static_indices` value (meaningful only when `children = []`; anytree
treats a node as a leaf exactly when it has no children).  `desc`, `coeff`
(`poly_coeff`) and `prob` (`bin_prob`) are the attributes attached by
`update_hierarchy_relevance`. -/
inductive HNode where
  | mk (idx : ℕ) (desc : Desc) (coeff : ℚ) (prob : ℚ) (children : List HNode)
deriving Repr

/-- The children of a hierarchy node. -/
def HNode.children : HNode → List HNode
  | .mk _ _ _ _ ch => ch

/-- The static feature index of a hierarchy node. -/
def HNode.idx : HNode → ℕ
  | .mk i _ _ _ _ => i

/-- The relevance description of a hierarchy node. -/
def HNode.desc : HNode → Desc
  | .mk _ d _ _ _ => d

/-- The `poly_coeff` attribute of a hierarchy node. -/
def HNode.coeff : HNode → ℚ
  | .mk _ _ c _ _ => c

/-- The `bin_prob` attribute of a hierarchy node. -/
def HNode.prob : HNode → ℚ
  | .mk _ _ _ p _ => p

mutual

/-- `update_hierarchy_relevance` (simulation.py lines 301-327), embedded as a
pure function: recompute every node's description (plus `poly_coeff` and
`bin_prob` for leaves) from the relevance map and the per-feature
probabilities.  The Python code traverses in post-order and each internal
node only reads its children's freshly assigned descriptions, which is
exactly this recursion. -/
def annotate (m : RMap) (probs : ℕ → ℚ) : HNode → HNode
  | .mk i _ _ _ [] =>
    if truthy (rmapGet m {i}) then .mk i .relevantLinear ((rmapGet m {i}).getD 0) (probs i) []
    else if i ∈ rmapFeatures m then .mk i .relevantInteractionOnly 0 (probs i) []
    else .mk i .irrelevant 0 (probs i) []
  | .mk i _ _ _ (c :: cs) =>
    let ch := annotateList m probs (c :: cs)
    .mk i (if ch.any (fun x => x.desc ≠ .irrelevant) then .relevant else .irrelevant) 0 0 ch

/-- Children list traversal of `update_hierarchy_relevance`. -/
def annotateList (m : RMap) (probs : ℕ → ℚ) : List HNode → List HNode
  | [] => []
  | x :: xs => annotate m probs x :: annotateList m probs xs

end

/-- Minimum of a nonempty list, Python's `min(...)`; `0` on the empty list
(Python would raise there; all call sites pass nonempty lists). -/
def minQ : List ℚ → ℚ
  | [] => 0
  | x :: xs => xs.foldl min x

mutual

/-- The ground-truth p-value heuristic of `compare_with_ground_truth`
(simulation.py lines 435-445): `1.0` for irrelevant nodes; for relevant
leaves `0.001`, lowered to `min(0.001, 1e-10 / (poly_coeff * bin_prob)^3)`
when the leaf has a truthy (nonzero) coefficient; for relevant internal
nodes `0.999` times the minimum of the children's p-values. -/
def pvalue : HNode → ℚ
  | .mk _ d c p [] =>
    if d = .irrelevant then 1
    else if c ≠ 0 then min (1/1000) ((1/10^10) / (c * p)^3)
    else 1/1000
  | .mk _ d _ _ (x :: xs) =>
    if d = .irrelevant then 1
    else (999/1000) * minQ (pvalueList (x :: xs))

/-- p-values of a list of nodes. -/
def pvalueList : List HNode → List ℚ
  | [] => []
  | x :: xs => pvalue x :: pvalueList xs

end

mutual

/-- All nodes of a hierarchy, listed root first (one entry per node). -/
def subtreesH : HNode → List HNode
  | .mk i d c p ch => .mk i d c p ch :: subtreesListH ch

/-- All nodes of a forest. -/
def subtreesListH : List HNode → List HNode
  | [] => []
  | x :: xs => subtreesH x ++ subtreesListH xs

end

mutual

/-- `anytree.PostOrderIter`: children's subtrees first (left to right), then
the node itself. -/
def postOrderH : HNode → List HNode
  | .mk i d c p ch => postOrderListH ch ++ [.mk i d c p ch]

/-- Post-order traversal of a forest. -/
def postOrderListH : List HNode → List HNode
  | [] => []
  | x :: xs => postOrderH x ++ postOrderListH xs

end

mutual

/-- Number of leaves of a hierarchy (a node is a leaf iff it has no
children, per anytree's `is_leaf`). -/
def leafCountH : HNode → ℕ
  | .mk _ _ _ _ [] => 1
  | .mk _ _ _ _ (x :: xs) => leafCountListH (x :: xs)

/-- Number of leaves of a forest. -/
def leafCountListH : List HNode → ℕ
  | [] => 0
  | x :: xs => leafCountH x + leafCountListH xs

end

mutual

/-- Descendant leaves of a node (the node itself when it is a leaf). -/
def leavesH : HNode → List HNode
  | .mk i d c p [] => [.mk i d c p []]
  | .mk _ _ _ _ (x :: xs) => leavesListH (x :: xs)

/-- Descendant leaves of a forest. -/
def leavesListH : List HNode → List HNode
  | [] => []
  | x :: xs => leavesH x ++ leavesListH xs

end

/-- Rose-tree induction for `HNode`: to prove `P` of every node it suffices
to prove it for a node from the hypothesis for all its children. -/
theorem HNode.ind (P : HNode → Prop)
    (h : ∀ i d c p ch, (∀ x ∈ ch, P x) → P (HNode.mk i d c p ch)) :
    ∀ t, P t := by
  intro t
  refine @HNode.rec P (fun l => ∀ x ∈ l, P x) ?_ ?_ ?_ t
  · exact fun i d c p ch ih => h i d c p ch ih
  · intro x hx
    cases hx
  · intro x xs hx hxs y hy
    cases hy with
    | head => exact hx
    | tail _ hmem => exact hxs y hmem

theorem HNode.desc_mk (i : ℕ) (d : Desc) (c p : ℚ) (ch : List HNode) :
    (HNode.mk i d c p ch).desc = d := rfl

theorem HNode.children_mk (i : ℕ) (d : Desc) (c p : ℚ) (ch : List HNode) :
    (HNode.mk i d c p ch).children = ch := rfl

theorem HNode.idx_mk (i : ℕ) (d : Desc) (c p : ℚ) (ch : List HNode) :
    (HNode.mk i d c p ch).idx = i := rfl

theorem HNode.coeff_mk (i : ℕ) (d : Desc) (c p : ℚ) (ch : List HNode) :
    (HNode.mk i d c p ch).coeff = c := rfl

theorem HNode.prob_mk (i : ℕ) (d : Desc) (c p : ℚ) (ch : List HNode) :
    (HNode.mk i d c p ch).prob = p := rfl

theorem annotateList_eq_map (m : RMap) (probs : ℕ → ℚ) (L : List HNode) :
    annotateList m probs L = L.map (annotate m probs) := by
  induction L with
  | nil => rfl
  | cons x xs ih => simp [annotateList, ih]

theorem annotate_children (m : RMap) (probs : ℕ → ℚ) (t : HNode) :
    (annotate m probs t).children = annotateList m probs t.children := by
  cases t with
  | mk i d c p ch =>
    cases ch with
    | nil =>
      simp only [annotate, HNode.children, annotateList]
      split_ifs <;> rfl
    | cons x xs => rfl

theorem annotate_idx (m : RMap) (probs : ℕ → ℚ) (t : HNode) :
    (annotate m probs t).idx = t.idx := by
  cases t with
  | mk i d c p ch =>
    cases ch with
    | nil =>
      simp only [annotate, HNode.idx]
      split_ifs <;> rfl
    | cons x xs => rfl

theorem leavesH_of_leaf {t : HNode} (h : t.children = []) : leavesH t = [t] := by
  cases t with
  | mk i d c p ch =>
    cases ch with
    | nil => rfl
    | cons x xs => simp [HNode.children] at h

theorem subtreesH_eq (t : HNode) : subtreesH t = t :: subtreesListH t.children := by
  cases t; rfl

theorem mem_subtreesListH {s : HNode} {L : List HNode} :
    s ∈ subtreesListH L ↔ ∃ x ∈ L, s ∈ subtreesH x := by
  induction L with
  | nil => simp [subtreesListH]
  | cons x xs ih => simp [subtreesListH, ih]

theorem self_mem_subtreesH (t : HNode) : t ∈ subtreesH t := by
  rw [subtreesH_eq]; exact List.mem_cons_self _ _

theorem mem_leavesListH {s : HNode} {L : List HNode} :
    s ∈ leavesListH L ↔ ∃ x ∈ L, s ∈ leavesH x := by
  induction L with
  | nil => simp [leavesListH]
  | cons x xs ih => simp [leavesListH, ih]

theorem subtreesListH_annotate (m : RMap) (probs : ℕ → ℚ) (L : List HNode)
    (h : ∀ x ∈ L, subtreesH (annotate m probs x) = (subtreesH x).map (annotate m probs)) :
    subtreesListH (annotateList m probs L) = (subtreesListH L).map (annotate m probs) := by
  induction L with
  | nil => rfl
  | cons x xs ih =>
    simp only [annotateList, subtreesListH, List.map_append]
    rw [h x (List.mem_cons_self _ _), ih (fun y hy => h y (List.mem_cons_of_mem _ hy))]

theorem subtreesH_annotate (m : RMap) (probs : ℕ → ℚ) (t : HNode) :
    subtreesH (annotate m probs t) = (subtreesH t).map (annotate m probs) := by
  induction t using HNode.ind with
  | h i d c p ch ih =>
    rw [subtreesH_eq, subtreesH_eq, annotate_children, List.map_cons]
    simp only [HNode.children]
    rw [subtreesListH_annotate m probs ch ih]

theorem leavesListH_annotate (m : RMap) (probs : ℕ → ℚ) (L : List HNode)
    (h : ∀ x ∈ L, leavesH (annotate m probs x) = (leavesH x).map (annotate m probs)) :
    leavesListH (annotateList m probs L) = (leavesListH L).map (annotate m probs) := by
  induction L with
  | nil => rfl
  | cons x xs ih =>
    simp only [annotateList, leavesListH, List.map_append]
    rw [h x (List.mem_cons_self _ _), ih (fun y hy => h y (List.mem_cons_of_mem _ hy))]

theorem leavesH_annotate (m : RMap) (probs : ℕ → ℚ) (t : HNode) :
    leavesH (annotate m probs t) = (leavesH t).map (annotate m probs) := by
  induction t using HNode.ind with
  | h i d c p ch ih =>
    cases ch with
    | nil =>
      have hch : (annotate m probs (HNode.mk i d c p [])).children = [] := by
        rw [annotate_children]; rfl
      rw [leavesH_of_leaf hch, leavesH_of_leaf (t := HNode.mk i d c p []) rfl]
      rfl
    | cons x xs =>
      have h1 : annotate m probs (HNode.mk i d c p (x :: xs))
          = HNode.mk i
            (if (annotateList m probs (x :: xs)).any (fun y => y.desc ≠ .irrelevant)
              then Desc.relevant else Desc.irrelevant) 0 0
            (annotateList m probs (x :: xs)) := rfl
      rw [h1]
      have h2 : ∀ (dd : Desc) (y : HNode) (ys : List HNode),
          leavesH (HNode.mk i dd 0 0 (y :: ys)) = leavesListH (y :: ys) := fun _ _ _ => rfl
      rcases h3 : annotateList m probs (x :: xs) with _ | ⟨y, ys⟩
      · simp [annotateList] at h3
      · rw [h2, ← h3, leavesListH_annotate m probs (x :: xs) ih]
        rfl

theorem annotate_internal (m : RMap) (probs : ℕ → ℚ) (i : ℕ) (d : Desc) (c p : ℚ)
    (x : HNode) (xs : List HNode) :
    annotate m probs (HNode.mk i d c p (x :: xs))
      = HNode.mk i
        (if (annotateList m probs (x :: xs)).any (fun y => y.desc ≠ .irrelevant)
          then Desc.relevant else Desc.irrelevant) 0 0
        (annotateList m probs (x :: xs)) := rfl

theorem leavesH_of_internal (i : ℕ) (d : Desc) (c p : ℚ) {ch : List HNode} (h : ch ≠ []) :
    leavesH (HNode.mk i d c p ch) = leavesListH ch := by
  cases ch with
  | nil => exact absurd rfl h
  | cons x xs => rfl

theorem annotateList_ne_nil (m : RMap) (probs : ℕ → ℚ) (x : HNode) (xs : List HNode) :
    annotateList m probs (x :: xs) ≠ [] := by
  simp [annotateList]

theorem annotate_irrelevant_iff (m : RMap) (probs : ℕ → ℚ) (t : HNode) :
    ((annotate m probs t).desc = .irrelevant
      ↔ ∀ ℓ ∈ leavesH (annotate m probs t), ℓ.desc = .irrelevant) := by
  induction t using HNode.ind with
  | h i d c p ch ih =>
    cases ch with
    | nil =>
      have hch : (annotate m probs (HNode.mk i d c p [])).children = [] := by
        rw [annotate_children]; rfl
      rw [leavesH_of_leaf hch]
      simp
    | cons x xs =>
      rw [annotate_internal,
        leavesH_of_internal _ _ _ _ (annotateList_ne_nil m probs x xs),
        HNode.desc_mk]
      by_cases hany : (annotateList m probs (x :: xs)).any
          (fun z => z.desc ≠ .irrelevant) = true
      · rw [if_pos hany]
        rcases List.any_eq_true.mp hany with ⟨z, hz, hzdesc⟩
        rw [annotateList_eq_map] at hz
        rcases List.mem_map.mp hz with ⟨z₀, hz₀, rfl⟩
        have hzdesc' : (annotate m probs z₀).desc ≠ .irrelevant := by simpa using hzdesc
        constructor
        · intro hcontra
          exact absurd hcontra (by simp)
        · intro hall
          exfalso
          apply hzdesc'
          rw [ih z₀ hz₀]
          intro ℓ hℓ
          refine hall ℓ ((mem_leavesListH).mpr ⟨annotate m probs z₀, ?_, hℓ⟩)
          rw [annotateList_eq_map]
          exact List.mem_map.mpr ⟨z₀, hz₀, rfl⟩
      · rw [if_neg hany]
        simp only [true_iff, eq_self_iff_true]
        intro ℓ hℓ
        rcases (mem_leavesListH).mp hℓ with ⟨z, hz, hℓz⟩
        rw [annotateList_eq_map] at hz
        rcases List.mem_map.mp hz with ⟨z₀, hz₀, rfl⟩
        have hzirr : (annotate m probs z₀).desc = .irrelevant := by
          by_contra hne
          exact hany (List.any_eq_true.mpr ⟨annotate m probs z₀,
            by rw [annotateList_eq_map]; exact List.mem_map.mpr ⟨z₀, hz₀, rfl⟩,
            by simpa using hne⟩)
        exact (ih z₀ hz₀).mp hzirr ℓ hℓz

theorem annotate_idem (m : RMap) (probs : ℕ → ℚ) (t : HNode) :
    annotate m probs (annotate m probs t) = annotate m probs t := by
  induction t using HNode.ind with
  | h i d c p ch ih =>
    cases ch with
    | nil =>
      by_cases h1 : truthy (rmapGet m {i}) <;> by_cases h2 : i ∈ rmapFeatures m <;>
        simp [annotate, h1, h2]
    | cons x xs =>
      have hmap : annotateList m probs (annotateList m probs (x :: xs))
          = annotateList m probs (x :: xs) := by
        rw [annotateList_eq_map, annotateList_eq_map, List.map_map]
        apply List.map_congr_left
        intro z hz
        exact ih z hz
      rcases h3 : annotateList m probs (x :: xs) with _ | ⟨y, ys⟩
      · simp [annotateList] at h3
      · rw [annotate_internal, h3, annotate_internal, ← h3, hmap, h3]

/-- C7: after `update_hierarchy_relevance`, every node's description is
irrelevant iff all of its descendant leaves are irrelevant; each internal
node is marked relevant iff at least one child is not irrelevant; and
re-running the annotation leaves all node attributes unchanged
(idempotence). -/
theorem claim_C7_update_hierarchy_relevance (m : RMap) (probs : ℕ → ℚ) (t : HNode) :
    (∀ s ∈ subtreesH (annotate m probs t),
      (s.desc = Desc.irrelevant ↔ ∀ ℓ ∈ leavesH s, ℓ.desc = Desc.irrelevant))
    ∧ (∀ s ∈ subtreesH (annotate m probs t), s.children ≠ [] →
      (s.desc = Desc.relevant ↔ ∃ cn ∈ s.children, cn.desc ≠ Desc.irrelevant))
    ∧ annotate m probs (annotate m probs t) = annotate m probs t := by
  refine ⟨?_, ?_, annotate_idem m probs t⟩
  · intro s hs
    rw [subtreesH_annotate] at hs
    rcases List.mem_map.mp hs with ⟨s₀, _, rfl⟩
    exact annotate_irrelevant_iff m probs s₀
  · intro s hs hne
    rw [subtreesH_annotate] at hs
    rcases List.mem_map.mp hs with ⟨s₀, _, rfl⟩
    rcases s₀ with ⟨i, d, c, p, ch⟩
    cases ch with
    | nil =>
      exfalso
      apply hne
      rw [annotate_children]
      rfl
    | cons x xs =>
      rw [annotate_internal, HNode.desc_mk, HNode.children_mk]
      by_cases hany : (annotateList m probs (x :: xs)).any
          (fun z => z.desc ≠ .irrelevant) = true
      · rw [if_pos hany]
        simp only [true_iff, eq_self_iff_true]
        rcases List.any_eq_true.mp hany with ⟨z, hz, hzdesc⟩
        exact ⟨z, hz, by simpa using hzdesc⟩
      · rw [if_neg hany]
        constructor
        · intro hcontra
          exact absurd hcontra (by simp)
        · rintro ⟨z, hz, hzdesc⟩
          exact absurd (List.any_eq_true.mpr ⟨z, hz, by simpa using hzdesc⟩) hany

/-- Witness for C7: concrete instance — the annotated root of a two-leaf
hierarchy (feature 0 carrying coefficient 1) is marked relevant because a
child is not irrelevant. -/
theorem claim_C7_witness :
    ((annotate [({0}, (1 : ℚ))] (fun _ => 1/2)
        (HNode.mk 5 .irrelevant 0 0 [HNode.mk 0 .irrelevant 0 0 [], HNode.mk 1 .irrelevant 0 0 []])).desc
        = Desc.relevant
      ↔ ∃ cn ∈ (annotate [({0}, (1 : ℚ))] (fun _ => 1/2)
        (HNode.mk 5 .irrelevant 0 0 [HNode.mk 0 .irrelevant 0 0 [], HNode.mk 1 .irrelevant 0 0 []])).children,
        cn.desc ≠ Desc.irrelevant) :=
  (claim_C7_update_hierarchy_relevance [({0}, (1 : ℚ))] (fun _ => 1/2)
      (HNode.mk 5 .irrelevant 0 0 [HNode.mk 0 .irrelevant 0 0 [], HNode.mk 1 .irrelevant 0 0 []])).2.1
    _ (self_mem_subtreesH _)
    (by rw [annotate_children]; exact annotateList_ne_nil _ _ _ _)

theorem pvalueList_eq_map (L : List HNode) : pvalueList L = L.map pvalue := by
  induction L with
  | nil => rfl
  | cons x xs ih => simp [pvalueList, ih]

theorem pvalue_leaf (i : ℕ) (d : Desc) (c p : ℚ) :
    pvalue (HNode.mk i d c p [])
      = if d = .irrelevant then 1
        else if c ≠ 0 then min (1/1000) ((1/10^10) / (c * p)^3)
        else 1/1000 := rfl

theorem pvalue_internal (i : ℕ) (d : Desc) (c p : ℚ) (x : HNode) (xs : List HNode) :
    pvalue (HNode.mk i d c p (x :: xs))
      = if d = .irrelevant then 1
        else (999/1000) * minQ (pvalueList (x :: xs)) := rfl

theorem rmapGet_some_mem {m : RMap} {k : Finset ℕ} {c : ℚ} (h : rmapGet m k = some c) :
    ∃ kv ∈ m, kv.1 = k ∧ kv.2 = c := by
  unfold rmapGet at h
  rcases hf : m.find? (fun kv => kv.1 = k) with _ | kv₀
  · rw [hf] at h
    simp at h
  · rw [hf] at h
    simp at h
    refine ⟨kv₀, List.mem_of_find?_eq_some hf, ?_, h⟩
    have := List.find?_some hf
    simpa using this

theorem foldl_min_pos {x : ℚ} {xs : List ℚ} (hx : 0 < x) (hxs : ∀ q ∈ xs, 0 < q) :
    0 < xs.foldl min x := by
  induction xs generalizing x with
  | nil => exact hx
  | cons y ys ih =>
    exact ih (lt_min hx (hxs y (List.mem_cons_self _ _)))
      (fun q hq => hxs q (List.mem_cons_of_mem _ hq))

theorem minQ_pos {l : List ℚ} (hne : l ≠ []) (h : ∀ q ∈ l, 0 < q) : 0 < minQ l := by
  cases l with
  | nil => exact absurd rfl hne
  | cons x xs =>
    exact foldl_min_pos (h x (List.mem_cons_self _ _))
      (fun q hq => h q (List.mem_cons_of_mem _ hq))

theorem annotate_leaf (m : RMap) (probs : ℕ → ℚ) (i : ℕ) (d : Desc) (c p : ℚ) :
    annotate m probs (HNode.mk i d c p [])
      = if truthy (rmapGet m {i})
          then HNode.mk i .relevantLinear ((rmapGet m {i}).getD 0) (probs i) []
        else if i ∈ rmapFeatures m then HNode.mk i .relevantInteractionOnly 0 (probs i) []
        else HNode.mk i .irrelevant 0 (probs i) [] := rfl

theorem pvalue_annotate_pos (m : RMap) (probs : ℕ → ℚ)
    (hm : ∀ kv ∈ m, (0 : ℚ) ≤ kv.2) (hp : ∀ i, 0 < probs i) (t : HNode) :
    0 < pvalue (annotate m probs t) := by
  induction t using HNode.ind with
  | h i d c p ch ih =>
    cases ch with
    | nil =>
      by_cases h1 : truthy (rmapGet m {i})
      · rcases hg : rmapGet m {i} with _ | c₀
        · rw [hg] at h1
          simp [truthy] at h1
        · have hc₀ : c₀ ≠ 0 := by
            rw [hg] at h1
            simpa [truthy] using h1
          have hc₀pos : 0 < c₀ := by
            rcases rmapGet_some_mem hg with ⟨kv, hkv, _, hv⟩
            exact lt_of_le_of_ne (hv ▸ hm kv hkv) (Ne.symm hc₀)
          rw [annotate_leaf, if_pos h1, hg]
          rw [show (some c₀).getD 0 = c₀ from rfl, pvalue_leaf]
          rw [if_neg (by simp), if_pos hc₀]
          refine lt_min (by norm_num) ?_
          apply div_pos (by norm_num)
          exact pow_pos (mul_pos hc₀pos (hp i)) 3
      · by_cases h2 : i ∈ rmapFeatures m <;>
          rw [annotate_leaf, if_neg h1] <;>
          simp [h2, pvalue_leaf]
    | cons x xs =>
      rw [annotate_internal]
      have hlist : ∀ q ∈ pvalueList (annotateList m probs (x :: xs)), 0 < q := by
        intro q hq
        rw [pvalueList_eq_map, annotateList_eq_map, List.map_map] at hq
        rcases List.mem_map.mp hq with ⟨z₀, hz₀, rfl⟩
        exact ih z₀ hz₀
      have hminpos : 0 < minQ (pvalueList (annotateList m probs (x :: xs))) := by
        apply minQ_pos ?_ hlist
        rw [show annotateList m probs (x :: xs)
            = annotate m probs x :: annotateList m probs xs from rfl]
        simp [pvalueList]
      rcases hch : annotateList m probs (x :: xs) with _ | ⟨y, ys⟩
      · exact absurd hch (annotateList_ne_nil m probs x xs)
      · rw [pvalue_internal]
        rw [hch] at hminpos
        split_ifs <;> first
          | exact mul_pos (by norm_num) hminpos
          | exact hminpos
          | norm_num

/-- C3 (amended): in the annotated hierarchy, every internal node whose
description is not irrelevant gets a p-value strictly below the minimum of
its children's p-values (assuming nonnegative planted coefficients and
positive per-feature probabilities, as drawn by the generator), and every
leaf with a nonzero coefficient gets a p-value at most the `0.001`
baseline (equality occurs when `1e-10 / (coeff * prob)^3 ≥ 0.001`). -/
theorem claim_C3_ground_truth_pvalues (m : RMap) (probs : ℕ → ℚ) (t : HNode)
    (hm : ∀ kv ∈ m, (0 : ℚ) ≤ kv.2) (hp : ∀ i, 0 < probs i) :
    (∀ s ∈ subtreesH (annotate m probs t), s.children ≠ [] → s.desc ≠ .irrelevant →
      pvalue s < minQ (pvalueList s.children))
    ∧ (∀ s ∈ subtreesH (annotate m probs t), s.children = [] → s.coeff ≠ 0 →
      pvalue s ≤ 1/1000) := by
  constructor
  · intro s hs hne hdesc
    rw [subtreesH_annotate] at hs
    rcases List.mem_map.mp hs with ⟨s₀, _, rfl⟩
    rcases s₀ with ⟨i, d, c, p, ch⟩
    cases ch with
    | nil =>
      exfalso
      apply hne
      rw [annotate_children]
      rfl
    | cons x xs =>
      rw [annotate_internal] at hdesc ⊢
      rw [HNode.children_mk]
      have hlist : ∀ q ∈ pvalueList (annotateList m probs (x :: xs)), 0 < q := by
        intro q hq
        rw [pvalueList_eq_map, annotateList_eq_map, List.map_map] at hq
        rcases List.mem_map.mp hq with ⟨z₀, _, rfl⟩
        exact pvalue_annotate_pos m probs hm hp z₀
      have hminpos : 0 < minQ (pvalueList (annotateList m probs (x :: xs))) := by
        apply minQ_pos ?_ hlist
        rw [show annotateList m probs (x :: xs)
            = annotate m probs x :: annotateList m probs xs from rfl]
        simp [pvalueList]
      rcases hch : annotateList m probs (x :: xs) with _ | ⟨y, ys⟩
      · exact absurd hch (annotateList_ne_nil m probs x xs)
      · rw [hch] at hdesc
        rw [hch] at hminpos
        rw [HNode.desc_mk] at hdesc
        rw [pvalue_internal, if_neg hdesc]
        linarith
  · intro s hs hleaf hcoeff
    rw [subtreesH_annotate] at hs
    rcases List.mem_map.mp hs with ⟨s₀, _, rfl⟩
    rcases s₀ with ⟨i, d, c, p, ch⟩
    cases ch with
    | cons x xs =>
      exfalso
      rw [annotate_internal, HNode.children_mk] at hleaf
      exact annotateList_ne_nil m probs x xs hleaf
    | nil =>
      by_cases h1 : truthy (rmapGet m {i})
      · rcases hg : rmapGet m {i} with _ | c₀
        · rw [hg] at h1
          simp [truthy] at h1
        · rw [annotate_leaf, if_pos h1, hg, show (some c₀).getD 0 = c₀ from rfl,
            pvalue_leaf, if_neg (by simp), if_pos (by
              rw [hg] at h1
              simpa [truthy] using h1)]
          exact min_le_left _ _
      · exfalso
        apply hcoeff
        rw [annotate_leaf, if_neg h1]
        by_cases h2 : i ∈ rmapFeatures m <;> simp [h2, HNode.coeff_mk]

/-- Counterexample for C3 as stated: in the annotated hierarchy below
(relevance map `{{0}: 1/250}`, all probabilities `1/2`), the irrelevant
internal node keeps p-value `1.0`, which is not strictly below the minimum
`1.0` of its children's p-values; and the leaf for feature 0 has nonzero
coefficient `1/250` yet p-value exactly `0.001` (because
`1e-10/((1/250)(1/2))^3 = 1/80 > 0.001`), not strictly below the baseline. -/
theorem claim_C3_counterexample :
    (HNode.mk 5 .irrelevant 0 0
        [HNode.mk 2 .irrelevant 0 (1/2) [], HNode.mk 3 .irrelevant 0 (1/2) []])
      ∈ subtreesH (annotate [({0}, (1/250 : ℚ))] (fun _ => 1/2)
        (HNode.mk 6 .irrelevant 0 0
          [HNode.mk 4 .irrelevant 0 0
            [HNode.mk 0 .irrelevant 0 0 [], HNode.mk 1 .irrelevant 0 0 []],
           HNode.mk 5 .irrelevant 0 0
            [HNode.mk 2 .irrelevant 0 0 [], HNode.mk 3 .irrelevant 0 0 []]]))
    ∧ ¬ (pvalue (HNode.mk 5 .irrelevant 0 0
          [HNode.mk 2 .irrelevant 0 (1/2) [], HNode.mk 3 .irrelevant 0 (1/2) []])
        < minQ (pvalueList
          [HNode.mk 2 .irrelevant 0 (1/2) [], HNode.mk 3 .irrelevant 0 (1/2) []]))
    ∧ (HNode.mk 0 .relevantLinear (1/250) (1/2) [])
      ∈ subtreesH (annotate [({0}, (1/250 : ℚ))] (fun _ => 1/2)
        (HNode.mk 6 .irrelevant 0 0
          [HNode.mk 4 .irrelevant 0 0
            [HNode.mk 0 .irrelevant 0 0 [], HNode.mk 1 .irrelevant 0 0 []],
           HNode.mk 5 .irrelevant 0 0
            [HNode.mk 2 .irrelevant 0 0 [], HNode.mk 3 .irrelevant 0 0 []]]))
    ∧ (HNode.mk 0 .relevantLinear (1/250) (1/2) []).coeff ≠ 0
    ∧ ¬ (pvalue (HNode.mk 0 .relevantLinear (1/250) (1/2) []) < 1/1000) := by
  have hA : annotate [({0}, (1/250 : ℚ))] (fun _ => 1/2)
      (HNode.mk 6 .irrelevant 0 0
        [HNode.mk 4 .irrelevant 0 0
          [HNode.mk 0 .irrelevant 0 0 [], HNode.mk 1 .irrelevant 0 0 []],
         HNode.mk 5 .irrelevant 0 0
          [HNode.mk 2 .irrelevant 0 0 [], HNode.mk 3 .irrelevant 0 0 []]])
      = HNode.mk 6 .relevant 0 0
        [HNode.mk 4 .relevant 0 0
          [HNode.mk 0 .relevantLinear (1/250) (1/2) [], HNode.mk 1 .irrelevant 0 (1/2) []],
         HNode.mk 5 .irrelevant 0 0
          [HNode.mk 2 .irrelevant 0 (1/2) [], HNode.mk 3 .irrelevant 0 (1/2) []]] := by
    norm_num [annotate, annotateList, rmapGet, rmapFeatures, truthy, List.find?,
      Finset.singleton_inj, HNode.desc_mk]
    decide
  refine ⟨?_, ?_, ?_, ?_, ?_⟩
  · rw [hA]
    simp [subtreesH, subtreesListH]
  · norm_num [pvalue_internal, pvalue_leaf, pvalueList, minQ]
  · rw [hA]
    simp [subtreesH, subtreesListH]
  · norm_num [HNode.coeff_mk]
  · rw [pvalue_leaf, if_neg (by simp), if_pos (by norm_num)]
    norm_num [min_def]

/-- Witness for C3: the amended theorem applied to a single planted leaf
(feature 0, coefficient `1/2`, probability `1/2`): its p-value is at most
the baseline `0.001`. -/
theorem claim_C3_witness :
    pvalue (annotate [({0}, (1/2 : ℚ))] (fun _ => 1/2) (HNode.mk 0 .irrelevant 0 0 []))
      ≤ 1/1000 :=
  (claim_C3_ground_truth_pvalues [({0}, (1/2 : ℚ))] (fun _ => 1/2)
      (HNode.mk 0 .irrelevant 0 0 [])
      (by intro kv hkv; simp at hkv; subst hkv; norm_num)
      (fun _ => by norm_num)).2
    _ (self_mem_subtreesH _)
    (by rw [annotate_children]; rfl)
    (by
      rw [annotate_leaf, if_pos (by norm_num [truthy, rmapGet, List.find?])]
      norm_num [rmapGet, List.find?, HNode.coeff_mk])

/-- A node of a discovery tree produced by the external hierarchical-FDR
stage (read back by `evaluate` via `JsonImporter`): description, rejection
flag, children. -/
inductive RTree where
  | mk (desc : Desc) (rejected : Bool) (children : List RTree)

/-- The children of a discovery-tree node. -/
def RTree.children : RTree → List RTree
  | .mk _ _ ch => ch

/-- The description of a discovery-tree node. -/
def RTree.desc : RTree → Desc
  | .mk d _ _ => d

/-- The `rejected` flag of a discovery-tree node. -/
def RTree.rejected : RTree → Bool
  | .mk _ r _ => r

mutual

/-- `anytree.PreOrderIter`: the node, then its children's subtrees. -/
def preOrderR : RTree → List RTree
  | .mk d r ch => .mk d r ch :: preOrderListR ch

/-- Pre-order traversal of a forest of discovery trees. -/
def preOrderListR : List RTree → List RTree
  | [] => []
  | x :: xs => preOrderR x ++ preOrderListR xs

end

/-- The `outer=True` filter of `get_relevant_rejected` (simulation.py line
471): nodes that are rejected and all of whose children are not rejected. -/
def outerFilter (nodes : List RTree) : List RTree :=
  nodes.filter (fun n => n.rejected && n.children.all (fun c => !c.rejected))

mutual

/-- Spec-side definition (from the specification's words, for comparison
with `outerFilter`): whether some strict descendant of the node is
rejected. -/
def hasRejectedDesc : RTree → Bool
  | .mk _ _ ch => hasRejectedDescList ch

/-- Whether some node of the forest (including roots) is rejected. -/
def hasRejectedDescList : List RTree → Bool
  | [] => false
  | x :: xs => (x.rejected || hasRejectedDesc x) || hasRejectedDescList xs

end

/-- Spec-side definition: the frontier of positive calls — rejected nodes
with no rejected descendant. -/
def specOuterNodes (t : RTree) : List RTree :=
  (preOrderR t).filter (fun n => n.rejected && !(hasRejectedDesc n))

/-- `sklearn.metrics.precision_recall_fscore_support` with
`average="binary"` on 0/1 label vectors, returning (precision, recall).
An undefined ratio (no positive predictions, or no positive labels) is
reported as `0.0`, sklearn's warning-and-zero behaviour. -/
def prfBinary (ys preds : List ℕ) : ℚ × ℚ :=
  let pairs := ys.zip preds
  let tp := (pairs.filter (fun ab => ab.1 == 1 && ab.2 == 1)).length
  let fp := (pairs.filter (fun ab => ab.1 != 1 && ab.2 == 1)).length
  let fn := (pairs.filter (fun ab => ab.1 == 1 && ab.2 != 1)).length
  (if tp + fp = 0 then 0 else (tp : ℚ) / (tp + fp),
   if tp + fn = 0 then 0 else (tp : ℚ) / (tp + fn))

/-- Translate a tested pair of (possibly contiguous/visual) ids back to
original feature ids via `feature_id_map` — skipped when the map is empty
(Python: `if feature_id_map:`); a missing key is a `KeyError`. -/
def translatePair (fidMap : List (ℕ × ℕ)) (pair : Finset ℕ) : Except Unit (Finset ℕ) :=
  if fidMap = [] then .ok pair
  else do
    let vals ← (pair.sort (· ≤ ·)).mapM (fun v =>
      match List.lookup v fidMap with
      | some w => Except.ok w
      | none => Except.error ())
    return vals.toFinset

/-- The scanning loop of `get_precision_recall_interactions` (simulation.py
lines 516-530) over the level-2 nodes of the interactions tree (each given
by its parsed id list and rejection flag), returning
(tp, fp, tn, fn, tested). -/
def interScan (m : RMap) (fidMap : List (ℕ × ℕ)) :
    List (List ℕ × Bool) → Except Unit (ℕ × ℕ × ℕ × ℕ × Finset (Finset ℕ))
  | [] => .ok (0, 0, 0, 0, ∅)
  | (ids, rej) :: rest => do
    let pair ← translatePair fidMap ids.toFinset
    let (tp, fp, tn, fn, tested) ← interScan m fidMap rest
    if rej then
      if truthy (rmapGet m pair) then .ok (tp + 1, fp, tn, fn, insert pair tested)
      else .ok (tp, fp + 1, tn, fn, insert pair tested)
    else
      if truthy (rmapGet m pair) then .ok (tp, fp, tn, fn + 1, insert pair tested)
      else .ok (tp, fp, tn + 1, fn, insert pair tested)

/-- `true_interactions`: keys of the relevance map with more than one
element. -/
def trueInteractions (m : RMap) : Finset (Finset ℕ) :=
  ((m.map (·.1)).filter (fun k => 1 < k.card)).toFinset

/-- `get_precision_recall_interactions` (simulation.py lines 498-537). -/
def getPRInteractions (analyze : Bool) (m : RMap) (fidMap : List (ℕ × ℕ))
    (itree : List (List ℕ × Bool)) : Except Unit (ℚ × ℚ) :=
  if !analyze then .ok (0, 0)
  else do
    let (tp, fp, _tn, fn, tested) ← interScan m fidMap itree
    if tp = 0 then .ok (0, 0)
    else
      let missed := trueInteractions m \ tested
      let fn2 := fn + missed.card
      .ok ((tp : ℚ) / (tp + fp), (tp : ℚ) / (tp + fn2))

/-- The eight-scalar simulation `Results` record. -/
structure ResultsT where
  fdr : ℚ
  power : ℚ
  outer_nodes_fdr : ℚ
  outer_nodes_power : ℚ
  base_features_fdr : ℚ
  base_features_power : ℚ
  interactions_fdr : ℚ
  interactions_power : ℚ

/-- `evaluate` (simulation.py lines 462-495): all-nodes, outer-nodes and
base-features (FDR, power) from the discovery tree's pre-order node list,
interactions (FDR, power) from `get_precision_recall_interactions`;
FDR = 1 − precision, power = recall. -/
def evaluateSim (analyze : Bool) (m : RMap) (fidMap : List (ℕ × ℕ))
    (tree : RTree) (itree : List (List ℕ × Bool)) : Except Unit ResultsT :=
  let nodes := preOrderR tree
  let rel := fun (l : List RTree) => l.map (fun n => if n.desc = .irrelevant then (0 : ℕ) else 1)
  let rej := fun (l : List RTree) => l.map (fun n => if n.rejected then (1 : ℕ) else 0)
  let pr := prfBinary (rel nodes) (rej nodes)
  let outer := outerFilter nodes
  let opr := prfBinary (rel outer) (rej outer)
  let leaves := nodes.filter (fun n => n.children.isEmpty)
  let bpr := prfBinary (rel leaves) (rej leaves)
  (getPRInteractions analyze m fidMap itree).map (fun ipr =>
    ⟨1 - pr.1, pr.2, 1 - opr.1, opr.2, 1 - bpr.1, bpr.2, 1 - ipr.1, ipr.2⟩)

/-- Counterexample for C4 as stated: in the three-node chain
rejected—not rejected—rejected, the code's outer-node filter keeps the root
(its only child is not rejected) even though the root has a rejected
descendant, so the filtered set is not the set of rejected nodes with no
rejected descendant. -/
theorem claim_C4_counterexample :
    outerFilter (preOrderR
        (RTree.mk .relevant true [RTree.mk .relevant false [RTree.mk .relevant true []]]))
      ≠ specOuterNodes
        (RTree.mk .relevant true [RTree.mk .relevant false [RTree.mk .relevant true []]]) := by
  intro h
  have hlen := congrArg List.length h
  have h1 : (outerFilter (preOrderR
      (RTree.mk .relevant true [RTree.mk .relevant false [RTree.mk .relevant true []]]))).length
      = 2 := by decide
  have h2 : (specOuterNodes
      (RTree.mk .relevant true [RTree.mk .relevant false [RTree.mk .relevant true []]])).length
      = 1 := by decide
  rw [h1, h2] at hlen
  exact absurd hlen (by decide)

/-- C4 (amended): the node set used for the outer-nodes metrics is exactly
the set of pre-order nodes that are rejected and none of whose children is
rejected (the code checks children only, not all descendants; the two
notions coincide when rejections are upward-closed, as hierarchical FDR
output guarantees, but not for arbitrary rejection flags). -/
theorem claim_C4_outer_nodes (t : RTree) (n : RTree) :
    n ∈ outerFilter (preOrderR t)
      ↔ n ∈ preOrderR t ∧ n.rejected = true ∧ ∀ c ∈ n.children, c.rejected = false := by
  simp [outerFilter, List.mem_filter, List.all_eq_true, and_assoc]

/-- Witness for C4: a single rejected leaf is in the outer-node set of its
own one-node tree. -/
theorem claim_C4_witness :
    RTree.mk .relevant true [] ∈ outerFilter (preOrderR (RTree.mk .relevant true [])) :=
  (claim_C4_outer_nodes (RTree.mk .relevant true []) (RTree.mk .relevant true [])).mpr
    ⟨by simp [preOrderR, preOrderListR], rfl, by simp [RTree.children]⟩

theorem exceptMap_ok {α β ε : Type} (f : α → β) (x : α) :
    Except.map f (.ok x : Except ε α) = .ok (f x) := rfl

theorem exceptMap_error {α β ε : Type} (f : α → β) (e : ε) :
    Except.map f (.error e : Except ε α) = .error e := rfl

theorem exceptBind_ok {α β ε : Type} (x : α) (f : α → Except ε β) :
    ((.ok x : Except ε α) >>= f) = f x := rfl

theorem exceptBind_error {α β ε : Type} (e : ε) (f : α → Except ε β) :
    ((.error e : Except ε α) >>= f) = .error e := rfl

/-- Counterexample for C1 as stated: with interaction analysis disabled,
the evaluation result reports the interaction (FDR, power) pair as
(1.0, 0.0), not (0.0, 0.0): `get_precision_recall_interactions` returns
(0.0, 0.0) as (precision, recall) and `evaluate` stores FDR = 1 − precision. -/
theorem claim_C1_counterexample :
    (evaluateSim false [] [] (RTree.mk .relevant true []) []).map
        (fun r => (r.interactions_fdr, r.interactions_power))
      = .ok ((1 : ℚ), (0 : ℚ))
    ∧ ((1 : ℚ), (0 : ℚ)) ≠ ((0 : ℚ), (0 : ℚ)) := by
  constructor
  · have hpr : getPRInteractions false [] [] [] = .ok ((0 : ℚ), (0 : ℚ)) := by
      simp [getPRInteractions]
    rw [evaluateSim, hpr]
    simp [exceptMap_ok]
  · norm_num

/-- C1 (amended): if interaction analysis is disabled, or it is enabled and
the scan of the interactions tree finds zero true positives, then
`get_precision_recall_interactions` returns the (precision, recall) pair
(0.0, 0.0), and hence the evaluation result's interaction (FDR, power) pair
is (1.0, 0.0), regardless of the relevance map, feature-id map, main
discovery tree and interactions tree. -/
theorem claim_C1_interaction_fallback (analyze : Bool) (m : RMap)
    (fidMap : List (ℕ × ℕ)) (tree : RTree) (itree : List (List ℕ × Bool))
    (h : analyze = false
      ∨ ∃ fp tn fn tested, interScan m fidMap itree = .ok (0, fp, tn, fn, tested)) :
    getPRInteractions analyze m fidMap itree = .ok ((0 : ℚ), (0 : ℚ))
    ∧ (evaluateSim analyze m fidMap tree itree).map
        (fun r => (r.interactions_fdr, r.interactions_power))
      = .ok ((1 : ℚ), (0 : ℚ)) := by
  have hpr : getPRInteractions analyze m fidMap itree = .ok ((0 : ℚ), (0 : ℚ)) := by
    rcases h with h | ⟨fp, tn, fn, tested, hscan⟩
    · rw [h]
      simp [getPRInteractions]
    · cases analyze with
      | false => simp [getPRInteractions]
      | true => simp [getPRInteractions, hscan, exceptBind_ok]
  refine ⟨hpr, ?_⟩
  rw [evaluateSim, hpr]
  simp [exceptMap_ok]

/-- Witness for C1: concrete disabled-analysis run — the interaction
(FDR, power) of the evaluation result equals (1.0, 0.0). -/
theorem claim_C1_witness :
    getPRInteractions false [({0, 1}, (1 : ℚ))] [] [([0, 1], true)] = .ok ((0 : ℚ), (0 : ℚ))
    ∧ (evaluateSim false [({0, 1}, (1 : ℚ))] [] (RTree.mk .relevant true [])
        [([0, 1], true)]).map (fun r => (r.interactions_fdr, r.interactions_power))
      = .ok ((1 : ℚ), (0 : ℚ)) :=
  claim_C1_interaction_fallback false [({0, 1}, (1 : ℚ))] [] (RTree.mk .relevant true [])
    [([0, 1], true)] (Or.inl rfl)

/-- `np.random.RandomState(seed)` draws, embedded as deterministic
functions of the seed: `uniforms seed n` are the `n` draws of
`prg.uniform(-1, 1, (n, 1))`, `normal seed std` is the draw of
`prg.normal(0, std)`. -/
structure RandomSource where
  uniforms : ℕ → ℕ → List ℚ
  normal : ℕ → ℚ → ℚ

/-- The simulation `Model` (model.py lines 13-21): the model function
(mapping the static vector and the noise vector to the first component of
its output), the noise multiplier, and the noise type string. -/
structure Model where
  model_fn : List ℚ → List ℚ → ℚ
  noise_multiplier : ℚ
  noise_type : String

/-- `hashxx(static_data.data.tobytes())` then `np.random.RandomState(hashval)`:
the seed is a deterministic (hash) function of the static vector alone. -/
def derivedSeed (hashFn : List ℚ → ℕ) (static : List ℚ) : ℕ := hashFn static

/-- The prediction computed by `Model.predict` (model.py lines 38-48):
epsilon-irrelevant noise multiplies per-feature uniform draws; additive
Gaussian noise is a single normal draw; any other noise type — including
`no_noise` — raises `NotImplementedError`. -/
def Model.predictionOf (mdl : Model) (hashFn : List ℚ → ℕ) (rs : RandomSource)
    (static : List ℚ) : Except Unit ℚ :=
  let hashval := derivedSeed hashFn static
  if mdl.noise_type = EPSILON_IRRELEVANT then
    .ok (mdl.model_fn static
      ((rs.uniforms hashval static.length).map (fun u => mdl.noise_multiplier * u)))
  else if mdl.noise_type = ADDITIVE_GAUSSIAN then
    .ok (mdl.model_fn static [rs.normal hashval mdl.noise_multiplier])
  else .error ()

/-- `Model.predict` (model.py lines 23-50): returns
`(loss, prediction)` with `loss = np.sqrt(np.power(prediction - target, 2))`.
`temporal` is accepted and unused, as in the source. -/
noncomputable def Model.predict (mdl : Model) (hashFn : List ℚ → ℕ) (rs : RandomSource)
    (target : ℚ) (static : List ℚ) (temporal : List (List ℚ)) : Except Unit (ℝ × ℚ) :=
  (Model.predictionOf mdl hashFn rs static).map
    (fun pred => (Real.sqrt (((pred - target : ℚ) : ℝ)^2), pred))

/-- C2: the code contradicts the claim — `Model.predict` raises
`NotImplementedError("Unknown noise type")` for the documented CLI choice
`no_noise` (its `if/elif` covers only `epsilon_irrelevant` and
`additive_gaussian`), instead of succeeding with the exact ground-truth
value.  Concrete failing run: noise type `no_noise`, target 0, static
vector `[1]`. -/
theorem claim_C2_no_noise_predict_fails :
    Model.predict ⟨fun _ _ => 0, 1, NO_NOISE⟩ (fun _ => 0)
      ⟨fun _ _ => [], fun _ _ => 0⟩ 0 [1] [] = .error () := by
  simp [Model.predict, Model.predictionOf, NO_NOISE, EPSILON_IRRELEVANT,
    ADDITIVE_GAUSSIAN, exceptMap_error]

/-- C5: `Model.predict` is deterministic in its static input: for identical
static vectors the derived seed, the per-instance noise draws and the
prediction are identical, and for equal targets the full (loss, prediction)
results are identical (the prediction not depending on the target or the
temporal data at all). -/
theorem claim_C5_predict_deterministic (mdl : Model) (hashFn : List ℚ → ℕ)
    (rs : RandomSource) (t₁ t₂ : ℚ) (s₁ s₂ : List ℚ) (tmp₁ tmp₂ : List (List ℚ))
    (hs : s₁ = s₂) :
    derivedSeed hashFn s₁ = derivedSeed hashFn s₂
    ∧ rs.uniforms (derivedSeed hashFn s₁) s₁.length
      = rs.uniforms (derivedSeed hashFn s₂) s₂.length
    ∧ rs.normal (derivedSeed hashFn s₁) mdl.noise_multiplier
      = rs.normal (derivedSeed hashFn s₂) mdl.noise_multiplier
    ∧ Model.predictionOf mdl hashFn rs s₁ = Model.predictionOf mdl hashFn rs s₂
    ∧ (t₁ = t₂ →
      Model.predict mdl hashFn rs t₁ s₁ tmp₁ = Model.predict mdl hashFn rs t₂ s₂ tmp₂) := by
  subst hs
  exact ⟨rfl, rfl, rfl, rfl, fun ht => by subst ht; rfl⟩

/-- Witness for C5: a concrete epsilon-irrelevant model evaluated twice on
the static vector `[1, 0]` gives identical outputs. -/
theorem claim_C5_witness :
    Model.predict ⟨fun s _ => s.headD 0, 1/20, EPSILON_IRRELEVANT⟩ (fun s => s.length)
        ⟨fun _ n => List.replicate n (1/2), fun _ _ => 0⟩ 2 [1, 0] []
      = Model.predict ⟨fun s _ => s.headD 0, 1/20, EPSILON_IRRELEVANT⟩ (fun s => s.length)
        ⟨fun _ n => List.replicate n (1/2), fun _ _ => 0⟩ 2 [1, 0] [[3]] :=
  (claim_C5_predict_deterministic ⟨fun s _ => s.headD 0, 1/20, EPSILON_IRRELEVANT⟩
    (fun s => s.length) ⟨fun _ n => List.replicate n (1/2), fun _ _ => 0⟩
    2 2 [1, 0] [1, 0] [] [[3]] rfl).2.2.2.2 rfl

/-- C10: whenever `Model.predict` succeeds, the returned loss equals the
absolute difference between prediction and target
(`sqrt((prediction - target)^2) = |prediction - target|`), hence is
nonnegative. -/
theorem claim_C10_loss_is_abs_error (mdl : Model) (hashFn : List ℚ → ℕ)
    (rs : RandomSource) (t : ℚ) (s : List ℚ) (tmp : List (List ℚ)) (l : ℝ) (p : ℚ)
    (h : Model.predict mdl hashFn rs t s tmp = .ok (l, p)) :
    l = |((p : ℝ) - (t : ℝ))| ∧ 0 ≤ l := by
  rcases hp : Model.predictionOf mdl hashFn rs s with _ | pred
  · rw [Model.predict, hp, exceptMap_error] at h
    cases h
  · rw [Model.predict, hp, exceptMap_ok] at h
    have hl : l = Real.sqrt (((pred - t : ℚ) : ℝ)^2) := by
      cases h
      rfl
    have hpred : p = pred := by
      cases h
      rfl
    subst hpred
    constructor
    · rw [hl, Real.sqrt_sq_eq_abs]
      congr 1
      push_cast
      ring
    · rw [hl]
      exact Real.sqrt_nonneg _

/-- Witness for C10: a concrete successful prediction (epsilon-irrelevant
noise, zero model) has loss `|0 - 0|`, which is nonnegative. -/
theorem claim_C10_witness :
    Real.sqrt ((((0 : ℚ) - (0 : ℚ) : ℚ) : ℝ)^2) = |(((0 : ℚ) : ℝ) - ((0 : ℚ) : ℝ))|
    ∧ (0 : ℝ) ≤ Real.sqrt ((((0 : ℚ) - (0 : ℚ) : ℚ) : ℝ)^2) :=
  claim_C10_loss_is_abs_error ⟨fun _ _ => 0, 1, EPSILON_IRRELEVANT⟩ (fun _ => 0)
    ⟨fun _ _ => [], fun _ _ => 0⟩ 0 [] [] _ 0 rfl

/-- `update_interaction_terms` (simulation.py lines 263-278), restricted to
its effect on `relevant_feature_map` (the symbolic polynomial accumulation
is not needed by any claim): the sampled interaction pairs — drawn by
`rng.choice` from the 2-combinations of the relevant features, passed here
explicitly together with their drawn coefficients — are recorded under
their frozenset keys. -/
def update_interaction_terms (pairs : List (ℕ × ℕ)) (coeffs : List ℚ) (m : RMap) : RMap :=
  m ++ (pairs.zip coeffs).map (fun pc => ({pc.1.1, pc.1.2}, pc.2))

/-- `update_linear_terms` (simulation.py lines 281-298), restricted to its
effect on `relevant_feature_map`: every relevant feature except the chosen
interaction-only ones (in sorted order) gets its drawn coefficient recorded
under its singleton key. -/
def update_linear_terms (relevant : Finset ℕ) (ionly : List ℕ) (coeffFn : ℕ → ℚ)
    (m : RMap) : RMap :=
  m ++ ((relevant \ ionly.toFinset).sort (· ≤ ·)).map (fun f => ({f}, coeffFn f))

/-- The relevance map built by `gen_polynomial` (simulation.py lines
220-250): interaction terms first, then linear terms, starting from the
empty dictionary. -/
def relevantFeatureMap (relevant : Finset ℕ) (pairs : List (ℕ × ℕ)) (coeffs : List ℚ)
    (ionly : List ℕ) (coeffFn : ℕ → ℚ) : RMap :=
  update_linear_terms relevant ionly coeffFn (update_interaction_terms pairs coeffs [])

/-- C6: in the synthesized relevance map, each member of every size-2 key
either appears as a size-1 key or is marked interaction-only; and
interaction-only features never appear as size-1 keys.  The hypothesis
states that the sampled pairs are 2-combinations of the relevant feature
set, as `rng.choice` over `itertools.combinations(sorted(relevant), 2)`
guarantees. -/
theorem claim_C6_relevance_map_invariant (relevant : Finset ℕ) (pairs : List (ℕ × ℕ))
    (coeffs : List ℚ) (ionly : List ℕ) (coeffFn : ℕ → ℚ)
    (hpairs : ∀ pr ∈ pairs, pr.1 ∈ relevant ∧ pr.2 ∈ relevant ∧ pr.1 ≠ pr.2) :
    (∀ k v, (k, v) ∈ relevantFeatureMap relevant pairs coeffs ionly coeffFn →
      k.card = 2 → ∀ f ∈ k,
        (∃ c, ({f}, c) ∈ relevantFeatureMap relevant pairs coeffs ionly coeffFn)
        ∨ f ∈ ionly)
    ∧ (∀ f ∈ ionly, ∀ c,
      ({f}, c) ∉ relevantFeatureMap relevant pairs coeffs ionly coeffFn) := by
  constructor
  · intro k v hkv hcard f hf
    by_cases hio : f ∈ ionly
    · exact Or.inr hio
    · left
      have hkey : ∃ pr ∈ pairs, k = {pr.1, pr.2} := by
        simp only [relevantFeatureMap, update_linear_terms, update_interaction_terms,
          List.nil_append, List.mem_append, List.mem_map] at hkv
        rcases hkv with ⟨pc, hpc, hpceq⟩ | ⟨g, hg, hgeq⟩
        · rcases List.mem_zip hpc with ⟨hp, _⟩
          exact ⟨pc.1, hp, by rw [← (Prod.mk.injEq _ _ _ _).mp hpceq |>.1]⟩
        · exfalso
          have : k = {g} := by rw [← (Prod.mk.injEq _ _ _ _).mp hgeq |>.1]
          rw [this] at hcard
          simp at hcard
      rcases hkey with ⟨pr, hpr, rfl⟩
      have hfrel : f ∈ relevant := by
        rcases Finset.mem_insert.mp hf with h | h
        · exact h ▸ (hpairs pr hpr).1
        · exact (Finset.mem_singleton.mp h) ▸ (hpairs pr hpr).2.1
      refine ⟨coeffFn f, ?_⟩
      simp only [relevantFeatureMap, update_linear_terms, List.mem_append, List.mem_map]
      right
      refine ⟨f, ?_, rfl⟩
      rw [Finset.mem_sort]
      exact Finset.mem_sdiff.mpr ⟨hfrel, fun hc => hio (List.mem_toFinset.mp hc)⟩
  · intro f hio c hc
    simp only [relevantFeatureMap, update_linear_terms, update_interaction_terms,
      List.nil_append, List.mem_append, List.mem_map] at hc
    rcases hc with ⟨pc, hpc, hpceq⟩ | ⟨g, hg, hgeq⟩
    · rcases List.mem_zip hpc with ⟨hp, _⟩
      have hkeq : ({f} : Finset ℕ) = {pc.1.1, pc.1.2} := by
        rw [← (Prod.mk.injEq _ _ _ _).mp hpceq |>.1]
      have hne := (hpairs pc.1 hp).2.2
      have h1 : pc.1.1 ∈ ({f} : Finset ℕ) := hkeq ▸ Finset.mem_insert_self _ _
      have h2 : pc.1.2 ∈ ({f} : Finset ℕ) := hkeq ▸ Finset.mem_insert.mpr
        (Or.inr (Finset.mem_singleton_self _))
      exact hne ((Finset.mem_singleton.mp h1).trans (Finset.mem_singleton.mp h2).symm)
    · have hkeq : ({f} : Finset ℕ) = {g} := by
        rw [← (Prod.mk.injEq _ _ _ _).mp hgeq |>.1]
      have hfg : f = g := by
        have := Finset.mem_singleton_self f
        rw [hkeq] at this
        exact Finset.mem_singleton.mp this
      rw [Finset.mem_sort] at hg
      exact (Finset.mem_sdiff.mp hg).2 (List.mem_toFinset.mpr (hfg ▸ hio))

/-- Witness for C6: features `{0, 1, 2}` relevant, one interaction `(0, 1)`
with feature 0 marked interaction-only — feature 0 gets no singleton key. -/
theorem claim_C6_witness :
    ({0}, (1/3 : ℚ)) ∉ relevantFeatureMap {0, 1, 2} [(0, 1)] [1/2] [0] (fun _ => 1/3) :=
  (claim_C6_relevance_map_invariant {0, 1, 2} [(0, 1)] [1/2] [0] (fun _ => 1/3)
      (by intro pr hpr; simp at hpr; subst hpr; refine ⟨by simp, by simp, by norm_num⟩)).2
    0 (List.mem_cons_self _ _) (1/3)

/-- A fresh internal node created by `gen_random_hierarchy`
(`anytree.Node(str(node_count))`): no static index, no attributes yet. -/
def newParent (ch : List HNode) : HNode := .mk 0 .irrelevant 0 0 ch

/-- One round of `gen_random_hierarchy`'s pairing loop (simulation.py lines
170-178): consecutive nodes are paired under fresh parents; an odd node out
gets a single-child parent. -/
def pairUpH : List HNode → List HNode
  | [] => []
  | [a] => [newParent [a]]
  | a :: b :: rest => newParent [a, b] :: pairUpH rest

theorem pairUpH_length (l : List HNode) : (pairUpH l).length = (l.length + 1) / 2 := by
  induction l using pairUpH.induct with
  | case1 => simp [pairUpH]
  | case2 a => simp [pairUpH]
  | case3 a b rest ih =>
    simp only [pairUpH, List.length_cons, ih]
    omega

/-- The `while len(nodes) > 1` loop of `gen_random_hierarchy`, returning
`nodes[0]`; `none` models the `IndexError` on an empty node list. -/
def buildUp (nodes : List HNode) : Option HNode :=
  if h : nodes.length ≤ 1 then nodes.head?
  else buildUp (pairUpH nodes)
termination_by nodes.length
decreasing_by
  rw [pairUpH_length]
  omega

/-- `gen_random_hierarchy` (simulation.py lines 163-182): leaves for the
features in shuffled order (the shuffle's output passed explicitly), paired
up until a single root remains. -/
def gen_random_hierarchy (order : List ℕ) : Option HNode :=
  buildUp (order.map (fun i => HNode.mk i .irrelevant 0 0 []))

/-- Python `min` over a list of naturals (0 on the empty list, which the
source never passes). -/
def minN : List ℕ → ℕ
  | [] => 0
  | x :: xs => xs.foldl min x

/-- Python `max` over a list of naturals (0 on the empty list, which the
source never passes). -/
def maxN : List ℕ → ℕ
  | [] => 0
  | x :: xs => xs.foldl max x

/-- A hierarchy node after the contiguous-renaming pass of `gen_hierarchy`
(simulation.py lines 144-160): post-order enumeration index (also the new
name), derived stats `min_child_idx`, `max_child_idx`,
`num_base_features`, and the original static index. -/
inductive STree where
  | mk (idx minChildIdx maxChildIdx numBase origIdx : ℕ) (children : List STree)

/-- The new contiguous index of a renamed node. -/
def STree.idx : STree → ℕ
  | .mk i _ _ _ _ _ => i

/-- The `min_child_idx` stat of a renamed node. -/
def STree.minChildIdx : STree → ℕ
  | .mk _ mn _ _ _ _ => mn

/-- The `max_child_idx` stat of a renamed node. -/
def STree.maxChildIdx : STree → ℕ
  | .mk _ _ mx _ _ _ => mx

/-- The `num_base_features` stat of a renamed node. -/
def STree.numBase : STree → ℕ
  | .mk _ _ _ nb _ _ => nb

/-- The original static index of a renamed node. -/
def STree.origIdx : STree → ℕ
  | .mk _ _ _ _ o _ => o

/-- The children of a renamed node. -/
def STree.childrenS : STree → List STree
  | .mk _ _ _ _ _ ch => ch

mutual

/-- The contiguous-renaming pass of `gen_hierarchy` (simulation.py lines
146-159), embedded recursively: `enumerate(anytree.PostOrderIter(root))`
numbers all of a node's children's subtrees (left to right) before the node
itself, so the counter is threaded through the children and the node takes
the next index.  Leaves record `min_child_idx = max_child_idx = idx`,
`num_base_features = 1`, and the `feature_id_map` entry `idx ↦ static
index`; internal nodes derive `min_child_idx` from the children's
`min_child_idx`, `max_child_idx` from the children's `idx`, and
`num_base_features` as the children's sum.  Returns the renamed tree, the
next counter value, and the accumulated `feature_id_map`. -/
def ctigNode : HNode → ℕ → STree × ℕ × List (ℕ × ℕ)
  | .mk orig _ _ _ [], k => (.mk k k k 1 orig [], k + 1, [(k, orig)])
  | .mk orig _ _ _ (x :: xs), k =>
    let r := ctigList (x :: xs) k
    (.mk r.2.1 (minN (r.1.map STree.minChildIdx)) (maxN (r.1.map STree.idx))
      ((r.1.map STree.numBase).sum) orig r.1,
     r.2.1 + 1, r.2.2)

/-- Children traversal of the contiguous-renaming pass. -/
def ctigList : List HNode → ℕ → List STree × ℕ × List (ℕ × ℕ)
  | [], k => ([], k, [])
  | x :: xs, k =>
    let a := ctigNode x k
    let b := ctigList xs a.2.1
    (a.1 :: b.1, b.2.1, a.2.2 ++ b.2.2)

end

mutual

/-- All nodes of a renamed hierarchy. -/
def subtreesS : STree → List STree
  | .mk i mn mx nb o ch => .mk i mn mx nb o ch :: subtreesListS ch

/-- All nodes of a renamed forest. -/
def subtreesListS : List STree → List STree
  | [] => []
  | x :: xs => subtreesS x ++ subtreesListS xs

end

theorem STree.numBaseS_mk (i mn mx nb o : ℕ) (ch : List STree) :
    (STree.mk i mn mx nb o ch).numBase = nb := rfl

theorem STree.idxS_mk (i mn mx nb o : ℕ) (ch : List STree) :
    (STree.mk i mn mx nb o ch).idx = i := rfl

theorem STree.origIdxS_mk (i mn mx nb o : ℕ) (ch : List STree) :
    (STree.mk i mn mx nb o ch).origIdx = o := rfl

theorem STree.childrenS_mk (i mn mx nb o : ℕ) (ch : List STree) :
    (STree.mk i mn mx nb o ch).childrenS = ch := rfl

theorem pairUpH_leafCount (l : List HNode) :
    leafCountListH (pairUpH l) = leafCountListH l := by
  induction l using pairUpH.induct with
  | case1 => rfl
  | case2 a => simp [pairUpH, newParent, leafCountListH, leafCountH]
  | case3 a b rest ih =>
    simp [pairUpH, newParent, leafCountListH, leafCountH, ih]
    omega

theorem buildUp_leafCount (l : List HNode) (hne : l ≠ []) :
    ∃ r, buildUp l = some r ∧ leafCountH r = leafCountListH l := by
  induction l using buildUp.induct with
  | case1 nodes h =>
    rcases nodes with _ | ⟨a, rest⟩
    · exact absurd rfl hne
    · rcases rest with _ | ⟨b, rest'⟩
      · refine ⟨a, ?_, ?_⟩
        · rw [buildUp]
          simp
        · simp [leafCountListH]
      · simp at h
  | case2 nodes h ih =>
    have hpne : pairUpH nodes ≠ [] := by
      have := pairUpH_length nodes
      intro hcontra
      rw [hcontra] at this
      simp at this
      omega
    rcases ih hpne with ⟨r, hr, hc⟩
    refine ⟨r, ?_, ?_⟩
    · rw [buildUp, dif_neg h]
      exact hr
    · rw [hc, pairUpH_leafCount]

theorem postOrderListH_perm (L : List HNode)
    (h : ∀ x ∈ L, (postOrderH x).Perm (subtreesH x)) :
    (postOrderListH L).Perm (subtreesListH L) := by
  induction L with
  | nil => rfl
  | cons x xs ih =>
    exact (h x (List.mem_cons_self _ _)).append
      (ih (fun y hy => h y (List.mem_cons_of_mem _ hy)))

theorem postOrderH_perm (t : HNode) : (postOrderH t).Perm (subtreesH t) := by
  induction t using HNode.ind with
  | h i d c p ch ih =>
    have h1 : postOrderH (HNode.mk i d c p ch)
        = postOrderListH ch ++ [HNode.mk i d c p ch] := rfl
    have h2 : subtreesH (HNode.mk i d c p ch)
        = HNode.mk i d c p ch :: subtreesListH ch := rfl
    rw [h1, h2]
    exact (List.perm_append_singleton _ _).trans
      ((postOrderListH_perm ch ih).cons _)

theorem self_mem_postOrderH (t : HNode) : t ∈ postOrderH t := by
  cases t with
  | mk i d c p ch =>
    exact List.mem_append.mpr (Or.inr (List.mem_singleton_self _))

theorem mem_postOrderListH_of_mem {c : HNode} {L : List HNode} (h : c ∈ L) :
    c ∈ postOrderListH L := by
  induction L with
  | nil => cases h
  | cons x xs ih =>
    cases h with
    | head => exact List.mem_append.mpr (Or.inl (self_mem_postOrderH _))
    | tail _ hmem => exact List.mem_append.mpr (Or.inr (ih hmem))

theorem postOrderListH_split {x : HNode} {L : List HNode} (h : x ∈ L) :
    ∃ A B, postOrderListH L = A ++ postOrderH x ++ B := by
  induction L with
  | nil => cases h
  | cons y ys ih =>
    cases h with
    | head => exact ⟨[], postOrderListH ys, by simp [postOrderListH]⟩
    | tail _ hmem =>
      rcases ih hmem with ⟨A, B, hAB⟩
      exact ⟨postOrderH y ++ A, B, by simp [postOrderListH, hAB]⟩

theorem postOrder_children_before (t : HNode) :
    ∀ s ∈ subtreesH t, ∃ pre post,
      postOrderH t = pre ++ s :: post ∧ ∀ c ∈ s.children, c ∈ pre := by
  induction t using HNode.ind with
  | h i d c p ch ih =>
    intro s hs
    have h2 : subtreesH (HNode.mk i d c p ch)
        = HNode.mk i d c p ch :: subtreesListH ch := rfl
    rw [h2] at hs
    cases hs with
    | head =>
      refine ⟨postOrderListH ch, [], rfl, ?_⟩
      intro cn hcn
      rw [HNode.children_mk] at hcn
      exact mem_postOrderListH_of_mem hcn
    | tail _ hmem =>
      rcases mem_subtreesListH.mp hmem with ⟨x, hx, hsx⟩
      rcases ih x hx s hsx with ⟨pre', post', heq, hch⟩
      rcases postOrderListH_split hx with ⟨A, B, hAB⟩
      refine ⟨A ++ pre', post' ++ (B ++ [HNode.mk i d c p ch]), ?_, ?_⟩
      · have h1 : postOrderH (HNode.mk i d c p ch)
            = postOrderListH ch ++ [HNode.mk i d c p ch] := rfl
        rw [h1, hAB, heq]
        simp [List.append_assoc]
      · intro cn hcn
        exact List.mem_append.mpr (Or.inr (hch cn hcn))

theorem ctigList_numBase (L : List HNode)
    (h : ∀ x ∈ L, ∀ k', ((ctigNode x k').1).numBase = leafCountH x) :
    ∀ k, (((ctigList L k).1.map STree.numBase).sum) = leafCountListH L := by
  induction L with
  | nil => intro k; rfl
  | cons x xs ih =>
    intro k
    have hx := h x (List.mem_cons_self _ _) k
    have hxs := ih (fun y hy => h y (List.mem_cons_of_mem _ hy)) ((ctigNode x k).2.1)
    simp only [ctigList, List.map_cons, List.sum_cons, leafCountListH]
    rw [hx, hxs]

theorem ctigNode_numBase (t : HNode) :
    ∀ k, ((ctigNode t k).1).numBase = leafCountH t := by
  induction t using HNode.ind with
  | h i d c p ch ih =>
    intro k
    cases ch with
    | nil => rfl
    | cons x xs =>
      have h1 : (ctigNode (HNode.mk i d c p (x :: xs)) k).1
          = STree.mk ((ctigList (x :: xs) k).2.1)
            (minN ((ctigList (x :: xs) k).1.map STree.minChildIdx))
            (maxN ((ctigList (x :: xs) k).1.map STree.idx))
            (((ctigList (x :: xs) k).1.map STree.numBase).sum) i
            ((ctigList (x :: xs) k).1) := rfl
      rw [h1, STree.numBaseS_mk, ctigList_numBase (x :: xs) ih k]
      rfl

theorem leafCountListH_map_leaf (order : List ℕ) :
    leafCountListH (order.map (fun i => HNode.mk i .irrelevant 0 0 [])) = order.length := by
  induction order with
  | nil => rfl
  | cons x xs ih =>
    simp [leafCountListH, leafCountH, ih]
    omega

/-- C8: a random hierarchy built over `N ≥ 1` features (any shuffled leaf
order) has a root whose `num_base_features` stat, as computed by the
contiguous-renaming pass from any starting counter, equals `N`; and the
post-order traversal used to compute the derived stats lists every node of
any hierarchy exactly once (it is a permutation of the node list), with all
nodes of every child's subtree placed before their parent. -/
theorem claim_C8_hierarchy_stats_postorder :
    (∀ (N : ℕ) (order : List ℕ), order.Perm (List.range N) → 1 ≤ N →
      ∃ r, gen_random_hierarchy order = some r ∧ ∀ k, ((ctigNode r k).1).numBase = N)
    ∧ (∀ t : HNode, (postOrderH t).Perm (subtreesH t))
    ∧ (∀ t : HNode, ∀ s ∈ subtreesH t, ∃ pre post,
        postOrderH t = pre ++ s :: post ∧ ∀ c ∈ s.children, c ∈ pre) := by
  refine ⟨?_, postOrderH_perm, postOrder_children_before⟩
  intro N order hperm hN
  have hlen : order.length = N := by
    rw [hperm.length_eq, List.length_range]
  have hne : order.map (fun i => HNode.mk i .irrelevant 0 0 []) ≠ [] := by
    intro hcontra
    have := congrArg List.length hcontra
    simp [hlen] at this
    omega
  rcases buildUp_leafCount _ hne with ⟨r, hr, hc⟩
  refine ⟨r, hr, ?_⟩
  intro k
  rw [ctigNode_numBase, hc, leafCountListH_map_leaf, hlen]

/-- Witness for C8: for two features in shuffled order `[1, 0]`, the random
hierarchy exists and its contiguous-renaming root stat
`num_base_features` is 2. -/
theorem claim_C8_witness :
    ∃ r, gen_random_hierarchy [1, 0] = some r ∧ ∀ k, ((ctigNode r k).1).numBase = 2 :=
  claim_C8_hierarchy_stats_postorder.1 2 [1, 0] (by decide) (by decide)

theorem subtreesS_eq (s : STree) : subtreesS s = s :: subtreesListS s.childrenS := by
  cases s; rfl

theorem mem_subtreesListS {s : STree} {L : List STree} :
    s ∈ subtreesListS L ↔ ∃ x ∈ L, s ∈ subtreesS x := by
  induction L with
  | nil => simp [subtreesListS]
  | cons x xs ih => simp [subtreesListS, ih]

theorem self_mem_subtreesS (s : STree) : s ∈ subtreesS s := by
  rw [subtreesS_eq]; exact List.mem_cons_self _ _

theorem lookup_append_left {fm₁ fm₂ : List (ℕ × ℕ)} {i v : ℕ}
    (h : List.lookup i fm₁ = some v) : List.lookup i (fm₁ ++ fm₂) = some v := by
  induction fm₁ with
  | nil => simp [List.lookup] at h
  | cons a rest ih =>
    rcases a with ⟨a₁, a₂⟩
    cases hbeq : (i == a₁) with
    | false =>
      simp only [List.cons_append, List.lookup, hbeq] at h ⊢
      exact ih h
    | true =>
      simp only [List.cons_append, List.lookup, hbeq] at h ⊢
      exact h

theorem lookup_append_right {fm₁ fm₂ : List (ℕ × ℕ)} {i : ℕ}
    (h : ∀ p ∈ fm₁, p.1 ≠ i) : List.lookup i (fm₁ ++ fm₂) = List.lookup i fm₂ := by
  induction fm₁ with
  | nil => rfl
  | cons a rest ih =>
    rcases a with ⟨a₁, a₂⟩
    have ha : a₁ ≠ i := h (a₁, a₂) (List.mem_cons_self _ _)
    have hbeq : (i == a₁) = false := by
      rw [beq_eq_false_iff_ne]
      exact fun hc => ha hc.symm
    simp only [List.cons_append, List.lookup, hbeq]
    exact ih (fun p hp => h p (List.mem_cons_of_mem _ hp))

theorem ctig_inv_list (L : List HNode)
    (h : ∀ x ∈ L, ∀ k : ℕ,
      k < (ctigNode x k).2.1
      ∧ (∀ p ∈ (ctigNode x k).2.2, k ≤ p.1 ∧ p.1 < (ctigNode x k).2.1)
      ∧ (∀ s ∈ subtreesS (ctigNode x k).1, k ≤ s.idx ∧ s.idx < (ctigNode x k).2.1)
      ∧ (∀ s ∈ subtreesS (ctigNode x k).1, s.childrenS = [] →
          List.lookup s.idx (ctigNode x k).2.2 = some s.origIdx)) :
    ∀ k : ℕ,
      k ≤ (ctigList L k).2.1
      ∧ (∀ p ∈ (ctigList L k).2.2, k ≤ p.1 ∧ p.1 < (ctigList L k).2.1)
      ∧ (∀ t' ∈ (ctigList L k).1, ∀ s ∈ subtreesS t',
          k ≤ s.idx ∧ s.idx < (ctigList L k).2.1)
      ∧ (∀ t' ∈ (ctigList L k).1, ∀ s ∈ subtreesS t', s.childrenS = [] →
          List.lookup s.idx (ctigList L k).2.2 = some s.origIdx) := by
  induction L with
  | nil =>
    intro k
    refine ⟨le_refl _, ?_, ?_, ?_⟩ <;> simp [ctigList]
  | cons x xs ih =>
    intro k
    have ha := h x (List.mem_cons_self _ _) k
    have hb := ih (fun y hy => h y (List.mem_cons_of_mem _ hy)) ((ctigNode x k).2.1)
    have hstep : ctigList (x :: xs) k
        = ((ctigNode x k).1 :: (ctigList xs ((ctigNode x k).2.1)).1,
           (ctigList xs ((ctigNode x k).2.1)).2.1,
           (ctigNode x k).2.2 ++ (ctigList xs ((ctigNode x k).2.1)).2.2) := rfl
    rw [hstep]
    simp only []
    refine ⟨le_trans (le_of_lt ha.1) hb.1, ?_, ?_, ?_⟩
    · intro p hp
      rcases List.mem_append.mp hp with hp | hp
      · rcases ha.2.1 p hp with ⟨h1, h2⟩
        exact ⟨h1, lt_of_lt_of_le h2 hb.1⟩
      · rcases hb.2.1 p hp with ⟨h1, h2⟩
        exact ⟨le_trans (le_of_lt ha.1) h1, h2⟩
    · intro t' ht' s hs
      cases ht' with
      | head =>
        rcases ha.2.2.1 s hs with ⟨h1, h2⟩
        exact ⟨h1, lt_of_lt_of_le h2 hb.1⟩
      | tail _ hmem =>
        rcases hb.2.2.1 t' hmem s hs with ⟨h1, h2⟩
        exact ⟨le_trans (le_of_lt ha.1) h1, h2⟩
    · intro t' ht' s hs hleaf
      cases ht' with
      | head =>
        exact lookup_append_left (ha.2.2.2 s hs hleaf)
      | tail _ hmem =>
        have hge : (ctigNode x k).2.1 ≤ s.idx := (hb.2.2.1 t' hmem s hs).1
        have hskip : ∀ p ∈ (ctigNode x k).2.2, p.1 ≠ s.idx := by
          intro p hp hc
          have := (ha.2.1 p hp).2
          omega
        rw [lookup_append_right hskip]
        exact hb.2.2.2 t' hmem s hs hleaf

theorem ctig_inv_node (t : HNode) :
    ∀ k : ℕ,
      k < (ctigNode t k).2.1
      ∧ (∀ p ∈ (ctigNode t k).2.2, k ≤ p.1 ∧ p.1 < (ctigNode t k).2.1)
      ∧ (∀ s ∈ subtreesS (ctigNode t k).1, k ≤ s.idx ∧ s.idx < (ctigNode t k).2.1)
      ∧ (∀ s ∈ subtreesS (ctigNode t k).1, s.childrenS = [] →
          List.lookup s.idx (ctigNode t k).2.2 = some s.origIdx) := by
  induction t using HNode.ind with
  | h i d c p ch ih =>
    intro k
    cases ch with
    | nil =>
      have hstep : ctigNode (HNode.mk i d c p []) k
          = (STree.mk k k k 1 i [], k + 1, [(k, i)]) := rfl
      rw [hstep]
      simp only []
      refine ⟨by omega, ?_, ?_, ?_⟩
      · intro pr hpr
        simp only [List.mem_singleton] at hpr
        subst hpr
        omega
      · intro s hs
        simp only [subtreesS, subtreesListS, List.mem_singleton] at hs
        subst hs
        rw [STree.idxS_mk]
        omega
      · intro s hs _
        simp only [subtreesS, subtreesListS, List.mem_singleton] at hs
        subst hs
        rw [STree.idxS_mk, STree.origIdxS_mk]
        simp [List.lookup]
    | cons x xs =>
      have hl := ctig_inv_list (x :: xs) ih k
      have hstep : ctigNode (HNode.mk i d c p (x :: xs)) k
          = (STree.mk ((ctigList (x :: xs) k).2.1)
              (minN ((ctigList (x :: xs) k).1.map STree.minChildIdx))
              (maxN ((ctigList (x :: xs) k).1.map STree.idx))
              (((ctigList (x :: xs) k).1.map STree.numBase).sum) i
              ((ctigList (x :: xs) k).1),
             (ctigList (x :: xs) k).2.1 + 1, (ctigList (x :: xs) k).2.2) := rfl
      rw [hstep]
      simp only []
      have hLne : (ctigList (x :: xs) k).1 ≠ [] := by
        have : (ctigList (x :: xs) k).1
            = (ctigNode x k).1 :: (ctigList xs ((ctigNode x k).2.1)).1 := rfl
        rw [this]
        simp
      refine ⟨by omega, ?_, ?_, ?_⟩
      · intro pr hpr
        rcases hl.2.1 pr hpr with ⟨h1, h2⟩
        exact ⟨h1, by omega⟩
      · intro s hs
        rw [subtreesS_eq, STree.childrenS_mk] at hs
        cases hs with
        | head =>
          rw [STree.idxS_mk]
          omega
        | tail _ hmem =>
          rcases mem_subtreesListS.mp hmem with ⟨t', ht', hst⟩
          rcases hl.2.2.1 t' ht' s hst with ⟨h1, h2⟩
          exact ⟨h1, by omega⟩
      · intro s hs hleaf
        rw [subtreesS_eq, STree.childrenS_mk] at hs
        cases hs with
        | head =>
          rw [STree.childrenS_mk] at hleaf
          exact absurd hleaf hLne
        | tail _ hmem =>
          rcases mem_subtreesListS.mp hmem with ⟨t', ht', hst⟩
          exact hl.2.2.2 t' ht' s hst hleaf

/-- C9: after the contiguous-renaming transform, for every leaf of the
renamed hierarchy, looking up the leaf's new contiguous id in
`feature_id_map` yields the leaf's original static feature index —
composing the renaming with the feature-id map is the identity on feature
indices. -/
theorem claim_C9_feature_id_map_roundtrip (t : HNode) :
    ∀ s ∈ subtreesS ((ctigNode t 0).1), s.childrenS = [] →
      List.lookup s.idx ((ctigNode t 0).2.2) = some s.origIdx :=
  (ctig_inv_node t 0).2.2.2

/-- Witness for C9: in the two-leaf hierarchy with static indices 3 and 5,
the first leaf is renamed to contiguous id 0 and `feature_id_map` maps 0
back to 3. -/
theorem claim_C9_witness :
    List.lookup 0 ((ctigNode (HNode.mk 7 .irrelevant 0 0
        [HNode.mk 3 .irrelevant 0 0 [], HNode.mk 5 .irrelevant 0 0 []]) 0).2.2)
      = some 3 :=
  claim_C9_feature_id_map_roundtrip
    (HNode.mk 7 .irrelevant 0 0 [HNode.mk 3 .irrelevant 0 0 [], HNode.mk 5 .irrelevant 0 0 []])
    (STree.mk 0 0 0 1 3 [])
    (by
      rw [show (ctigNode (HNode.mk 7 .irrelevant 0 0
          [HNode.mk 3 .irrelevant 0 0 [], HNode.mk 5 .irrelevant 0 0 []]) 0).1
          = STree.mk 2 0 1 2 7 [STree.mk 0 0 0 1 3 [], STree.mk 1 1 1 1 5 []] from rfl]
      simp [subtreesS, subtreesListS])
    rfl

end Mihifepe
